import Mathlib

/-!
Shallow embedding of the core of the `gift` image-filter composition engine
(`gift.go`): bounds propagation, the pipeline executor (`Draw`), and the
compositor (`DrawAt` with the `Copy`/Replace and `Over` operators).

Modelling choices:
* `image.Point` / `image.Rectangle` (Go standard library) are embedded with
  `Int` coordinates; `Rectangle.Empty`, `Rectangle.Intersect`, `Add`, `Sub`
  and `Point.In` mirror the Go standard library semantics used by `gift.go`.
* Pixels are the canonical normalized four-channel representation (r, g, b, a)
  of the pixel access layer, with exact rational arithmetic standing in for
  the float arithmetic of the code.  Note that in this exact model a division
  by zero yields 0.
* A raster (`Image`) is a bounds rectangle plus a total pixel content
  function; `id` identifies the backing storage, and `canSub` models whether
  the concrete encoding is one of the six types for which `getSubImage`
  can build an aliasing sub-view.
* Side effects are made explicit: filter `draw` either fails or returns the
  new content of its output raster, and the run state `RunState` records the
  temporary allocations (`createTempImage`) and the filter invocations
  (output id, input id) in order.
* The row-parallel loops (`parallelize`) are modelled by their sequential
  functional equivalent, which is sound because each row partition is
  disjoint and each pixel is written exactly once from its own coordinates.
-/

namespace Gift

/-- Go `error` results are modelled by a numeric code (`nil` = `Except.ok`). -/
abbrev GoError := Nat

/-- Go `image.Point`: integer x, y coordinates. -/
structure Point where
  x : ℤ
  y : ℤ
deriving DecidableEq

/-- Go `image.Rectangle`: min and max corner, half-open. -/
structure Rectangle where
  min : Point
  max : Point
deriving DecidableEq

/-- Go `image.Point.Add`. -/
def Point.add (p q : Point) : Point := ⟨p.x + q.x, p.y + q.y⟩

/-- Go `image.Rectangle.Empty`: true when the rectangle has no points. -/
def Rectangle.Empty (r : Rectangle) : Prop :=
  r.max.x ≤ r.min.x ∨ r.max.y ≤ r.min.y

instance (r : Rectangle) : Decidable r.Empty :=
  inferInstanceAs (Decidable (_ ∨ _))

/-- Go `image.ZR`, the zero rectangle. -/
def Rectangle.ZR : Rectangle := ⟨⟨0, 0⟩, ⟨0, 0⟩⟩

/-- Membership of a coordinate pair in a rectangle (Go `image.Point.In`). -/
def Rectangle.Mem (r : Rectangle) (x y : ℤ) : Prop :=
  r.min.x ≤ x ∧ x < r.max.x ∧ r.min.y ≤ y ∧ y < r.max.y

instance (r : Rectangle) (x y : ℤ) : Decidable (r.Mem x y) :=
  inferInstanceAs (Decidable (_ ∧ _))

/-- Go `image.Point.In`. -/
def Point.In (p : Point) (r : Rectangle) : Prop := r.Mem p.x p.y

instance (p : Point) (r : Rectangle) : Decidable (p.In r) :=
  inferInstanceAs (Decidable (Rectangle.Mem _ _ _))

/-- Go `image.Rectangle.Add`: translate by a point. -/
def Rectangle.add (r : Rectangle) (p : Point) : Rectangle :=
  ⟨r.min.add p, r.max.add p⟩

/-- Go `image.Rectangle.Sub`: translate by the negation of a point. -/
def Rectangle.sub (r : Rectangle) (p : Point) : Rectangle :=
  ⟨⟨r.min.x - p.x, r.min.y - p.y⟩, ⟨r.max.x - p.x, r.max.y - p.y⟩⟩

/-- Go `image.Rectangle.Dx`, the width. -/
def Rectangle.Dx (r : Rectangle) : ℤ := r.max.x - r.min.x

/-- Go `image.Rectangle.Dy`, the height. -/
def Rectangle.Dy (r : Rectangle) : ℤ := r.max.y - r.min.y

/-- Go `image.Rectangle.Intersect`: clip each edge, and return the zero
rectangle when the clipped rectangle is empty. -/
def Rectangle.Intersect (r s : Rectangle) : Rectangle :=
  let t : Rectangle := ⟨⟨Max.max r.min.x s.min.x, Max.max r.min.y s.min.y⟩,
                        ⟨Min.min r.max.x s.max.x, Min.min r.max.y s.max.y⟩⟩
  if t.Empty then Rectangle.ZR else t

/-- The canonical normalized pixel of the pixel access layer: straight
(non-premultiplied) alpha, channels conceptually in [0,1]; embedded with
exact rational arithmetic. -/
structure Pixel where
  r : ℚ
  g : ℚ
  b : ℚ
  a : ℚ
deriving DecidableEq

/-- Go `gift.Options`. -/
structure Options where
  workers : ℤ
deriving DecidableEq

/-- Go `Options.init`: an unset or invalid (< 1) worker count resolves to
`min 6 numCPU`.  `runtime.NumCPU()` is the ambient core count, passed in as
a parameter (the Go runtime guarantees it is at least 1). -/
def Options.init (numCPU : ℤ) (o : Options) : Options :=
  if o.workers < 1 then { workers := Min.min 6 numCPU } else o

/-- Go package-level `defaultOptions`, initialized at package `init` time
from the zero `Options` value. -/
def defaultOptions (numCPU : ℤ) : Options :=
  Options.init numCPU { workers := 0 }

/-- A raster: bounds plus total pixel content.  `id` identifies the backing
storage; `canSub` records whether the concrete encoding is one of the six
types handled by `getSubImage`'s type switch.  Pixel get/set of the pixel
access layer is modelled as direct access to the normalized content. -/
structure Image where
  id : ℕ
  canSub : Bool
  bounds : Rectangle
  pix : ℤ → ℤ → Pixel

/-- Go `gift.Filter`: bounds propagation plus rendering.  `draw` returns the
new content of the output raster, or an error; this is the explicit form of
Go's in-place mutation of `dst`. -/
structure Filter where
  bounds : Rectangle → Rectangle
  draw : Image → Image → Options → Except GoError (ℤ → ℤ → Pixel)

/-- Go `gift.GIFT`: an ordered filter list plus options. -/
structure GIFT where
  filters : List Filter
  options : Options

/-- Go `gift.New`: default options (resolved at package init from the core
count) and the given filters. -/
def New (numCPU : ℤ) (filters : List Filter) : GIFT :=
  { filters := filters, options := defaultOptions numCPU }

/-- Go `gift.NewWithOptions`: the given options are resolved by
`Options.init` at construction time. -/
def NewWithOptions (numCPU : ℤ) (options : Options) (filters : List Filter) : GIFT :=
  { filters := filters, options := options.init numCPU }

/-- The explicit allocation/invocation state of one run: a counter for fresh
backing-storage ids, the list of temporary allocations, and the list of
filter invocations as (output id, input id) pairs, in invocation order. -/
structure RunState where
  nextId : ℕ
  allocs : List ℕ
  calls : List (ℕ × ℕ)
deriving DecidableEq

/-- Modelled from the spec: `createTempImage` is called by `Draw`/`DrawAt`
but its body is outside the provided source.  Per the spec it allocates a
fresh intermediate raster with the given bounds (a first-party encoding, so
sub-views are supported); content starts fully transparent. -/
def createTempImage (r : Rectangle) (s : RunState) : Image × RunState :=
  (⟨s.nextId, true, r, fun _ _ => ⟨0, 0, 0, 0⟩⟩,
   { nextId := s.nextId + 1, allocs := s.allocs ++ [s.nextId], calls := s.calls })

/-- Modelled from the spec: `copyimage` is called by `Draw` for an empty
filter list but its body is outside the provided source.  Per the spec it is
an exact pixel copy from `src` into `dst` over the overlapping region,
anchored at each raster's own origin. -/
def copyimage (dst src : Image) (_opts : Options) : Image :=
  { dst with pix := fun x y =>
      let dx := x - dst.bounds.min.x
      let dy := y - dst.bounds.min.y
      if 0 ≤ dx ∧ dx < min dst.bounds.Dx src.bounds.Dx ∧
         0 ≤ dy ∧ dy < min dst.bounds.Dy src.bounds.Dy then
        src.pix (src.bounds.min.x + dx) (src.bounds.min.y + dy)
      else dst.pix x y }

/-- The loop body of Go `GIFT.Bounds`: `b := srcBounds; for _, f := range
g.filters { b = f.Bounds(b) }`. -/
def boundsLoop : List Filter → Rectangle → Rectangle
  | [], b => b
  | f :: fs, b => boundsLoop fs (f.bounds b)

/-- Go `GIFT.Bounds`. -/
def GIFT.Bounds (g : GIFT) (srcBounds : Rectangle) : Rectangle :=
  boundsLoop g.filters srcBounds

/-- The loop of Go `GIFT.Draw` over a non-empty filter list: the first
filter reads `src`, the last writes `dst`, every other stage writes a fresh
temporary sized by the filter's own bounds function; a stage failure
returns immediately. -/
def drawLoop (opts : Options) (dst : Image) :
    List Filter → Image → RunState → Except GoError Image × RunState
  | [], _, s => (.ok dst, s)
  | [f], cur, s =>
      let s1 : RunState := { s with calls := s.calls ++ [(dst.id, cur.id)] }
      match f.draw dst cur opts with
      | .error e => (.error e, s1)
      | .ok out => (.ok { dst with pix := out }, s1)
  | f :: f2 :: rest, cur, s =>
      let tmpA := createTempImage (f.bounds cur.bounds) s
      let s1 : RunState := { tmpA.2 with calls := tmpA.2.calls ++ [(tmpA.1.id, cur.id)] }
      match f.draw tmpA.1 cur opts with
      | .error e => (.error e, s1)
      | .ok out => drawLoop opts dst (f2 :: rest) { tmpA.1 with pix := out } s1

/-- Go `GIFT.Draw`: an empty filter list copies `src` into `dst`; otherwise
the filters run in sequence via `drawLoop`. -/
def GIFT.Draw (g : GIFT) (dst src : Image) (s : RunState) :
    Except GoError Image × RunState :=
  if g.filters.isEmpty then (.ok (copyimage dst src g.options), s)
  else drawLoop g.options dst g.filters src s

/-- Go `gift.Operator` is an integer type, so values outside the two
enumerated constants are representable. -/
abbrev Operator := ℤ

/-- Go `gift.CopyOperator` (= Replace). -/
def CopyOperator : Operator := 0

/-- Go `gift.OverOperator`. -/
def OverOperator : Operator := 1

/-- Go `getSubImage`: a sub-view sharing the backing storage, available only
when the placement point lies in the bounds and the concrete encoding is one
of the six types of the type switch (modelled by `canSub`). -/
def getSubImage (img : Image) (pt : Point) : Option Image :=
  if ¬ (pt.In img.bounds) then none
  else if img.canSub then some { img with bounds := ⟨pt, img.bounds.max⟩ }
  else none

/-- The per-pixel body of the `OverOperator` loop in Go `GIFT.DrawAt`,
verbatim: weights, normalization by `cs` (division by zero yields 0 in this
exact model), and the straight-alpha output. -/
def overPixel (px0 px1 : Pixel) : Pixel :=
  let c1 := px1.a
  let c0 := (1 - c1) * px0.a
  let cs := c0 + c1
  let c0 := c0 / cs
  let c1 := c1 / cs
  { r := px0.r * c0 + px1.r * c1
    g := px0.g * c0 + px1.g * c1
    b := px0.b * c0 + px1.b * c1
    a := px0.a + px1.a * (1 - px0.a) }

/-- Go `GIFT.DrawAt`.  The `OverOperator` case renders into a temporary and
blends it over `dst` on the intersection; every other operator value takes
the default (Replace) path: render directly into `dst` when the placement
point is `dst`'s own origin, else into an aliasing sub-view when available,
else into a temporary that is then copied onto the intersection. -/
def GIFT.DrawAt (g : GIFT) (dst src : Image) (pt : Point) (op : Operator)
    (s : RunState) : Except GoError Image × RunState :=
  if op = OverOperator then
    let tb0 := g.Bounds src.bounds
    let tb := (tb0.sub tb0.min).add pt
    let tmpA := createTempImage tb s
    match g.Draw tmpA.1 src tmpA.2 with
    | (.error e, s2) => (.error e, s2)
    | (.ok tmp2, s2) =>
      let ib := tb.Intersect dst.bounds
      (.ok { dst with pix := fun x y =>
          if (ib.Mem x y) then overPixel (dst.pix x y) (tmp2.pix x y)
          else dst.pix x y }, s2)
  else
    if pt = dst.bounds.min then g.Draw dst src s
    else
      match getSubImage dst pt with
      | some subimg =>
        match g.Draw subimg src s with
        | (.ok sub2, s2) => (.ok { dst with pix := sub2.pix }, s2)
        | (.error e, s2) => (.error e, s2)
      | none =>
        let tb0 := g.Bounds src.bounds
        let tb := (tb0.sub tb0.min).add pt
        let tmpA := createTempImage tb s
        match g.Draw tmpA.1 src tmpA.2 with
        | (.error e, s2) => (.error e, s2)
        | (.ok tmp2, s2) =>
          let ib := tb.Intersect dst.bounds
          (.ok { dst with pix := fun x y =>
              if (ib.Mem x y) then tmp2.pix x y else dst.pix x y }, s2)

/-- The fully rendered temporary produced by the general path of `DrawAt`
(the render phase of the `OverOperator` case), exposed so that theorems can
name the composited source pixels. -/
def overTempImage (g : GIFT) (src : Image) (pt : Point) (s : RunState) :
    Option Image :=
  let tb0 := g.Bounds src.bounds
  let tb := (tb0.sub tb0.min).add pt
  let tmpA := createTempImage tb s
  match g.Draw tmpA.1 src tmpA.2 with
  | (.ok t, _) => some t
  | (.error _, _) => none

/-- The source-over compositing rule exactly as the spec states it:
normalized weights `c0/cs`, `c1/cs`, with the division guarded — when
`cs = 0` the result is fully transparent black.  Written from the spec's
words, to be compared with `overPixel`, which is embedded from the code. -/
def specSourceOver (px0 px1 : Pixel) : Pixel :=
  let c1 := px1.a
  let c0 := (1 - c1) * px0.a
  let cs := c0 + c1
  if cs = 0 then ⟨0, 0, 0, 0⟩
  else ⟨px0.r * (c0 / cs) + px1.r * (c1 / cs),
        px0.g * (c0 / cs) + px1.g * (c1 / cs),
        px0.b * (c0 / cs) + px1.b * (c1 / cs),
        px0.a + px1.a * (1 - px0.a)⟩

/-- The render contract of the spec's Filter interface: a successful render
writes only within the intersection of the filter's output bounds (for its
input's bounds) and the output raster's bounds. -/
def Filter.ConfinedWrites (f : Filter) : Prop :=
  ∀ dst src opts out, f.draw dst src opts = .ok out →
    ∀ x y : ℤ, ¬ ((f.bounds src.bounds).Intersect dst.bounds).Mem x y →
      out x y = dst.pix x y

/-- A filter whose render never signals failure. -/
def Filter.NeverFails (f : Filter) : Prop :=
  ∀ dst src opts, ∃ out, f.draw dst src opts = .ok out

theorem Rectangle.mem_intersect (r q : Rectangle) (x y : ℤ) :
    (r.Intersect q).Mem x y ↔ r.Mem x y ∧ q.Mem x y := by
  simp only [Rectangle.Intersect, Rectangle.Mem, Rectangle.Empty, Rectangle.ZR]
  split <;> rename_i hsp <;> simp only at hsp ⊢ <;> omega

theorem Rectangle.not_empty_of_mem {r : Rectangle} {x y : ℤ} (h : r.Mem x y) :
    ¬ r.Empty := by
  simp only [Rectangle.Mem] at h
  simp only [Rectangle.Empty]
  omega

theorem Rectangle.not_mem_of_empty {r : Rectangle} (h : r.Empty) (x y : ℤ) :
    ¬ r.Mem x y := fun hm => Rectangle.not_empty_of_mem hm h

theorem boundsLoop_eq_foldl (fs : List Filter) (B : Rectangle) :
    boundsLoop fs B = fs.foldl (fun b f => f.bounds b) B := by
  induction fs generalizing B with
  | nil => rfl
  | cons f fs ih => simp only [boundsLoop, List.foldl]; exact ih _

/-- C3: `Bounds` is the left fold of each filter's bounds function over the
input rectangle in sequence order, and is a pure function of the filter list
and the input bounds alone (in particular it ignores the options); in the
embedding it threads no run state, reflecting that it allocates nothing. -/
theorem Bounds_is_pure_fold (g : GIFT) (B : Rectangle) :
    g.Bounds B = g.filters.foldl (fun b f => f.bounds b) B ∧
    ∀ g' : GIFT, g'.filters = g.filters → g'.Bounds B = g.Bounds B := by
  refine ⟨boundsLoop_eq_foldl g.filters B, fun g' h => ?_⟩
  simp only [GIFT.Bounds, h]

/-- C4: a `DrawAt` to the destination's own origin with the Replace
operator is exactly `Draw`, including the resulting pixels, the returned
status, and the allocation/invocation trace. -/
theorem drawAt_replace_at_origin_eq_draw (g : GIFT) (dst src : Image)
    (s : RunState) :
    g.DrawAt dst src dst.bounds.min CopyOperator s = g.Draw dst src s := by
  rw [GIFT.DrawAt, if_neg (by decide), if_pos rfl]

/-- C10: every operator value other than `OverOperator` — including values
outside the enumerated constants — takes exactly the Replace path of
`DrawAt`: the whole run (result and trace) coincides with the
`CopyOperator` run, and no error is produced for an unrecognized value. -/
theorem drawAt_unknown_operator_is_replace (g : GIFT) (dst src : Image)
    (pt : Point) (s : RunState) (op : Operator) (hop : op ≠ OverOperator) :
    g.DrawAt dst src pt op s = g.DrawAt dst src pt CopyOperator s := by
  rw [GIFT.DrawAt, if_neg hop]
  rw [GIFT.DrawAt, if_neg (show ¬ (CopyOperator = OverOperator) by decide)]

/-- C9: construction resolves an unset or invalid (< 1) worker count to
`min 6 numCPU`; the resolved value is never below 1 (the Go runtime
guarantees `NumCPU ≥ 1`); an explicitly set valid value is kept. -/
theorem workers_resolution (numCPU : ℤ) (h : 1 ≤ numCPU) (o : Options)
    (fs : List Filter) :
    ((o.workers < 1 →
        (NewWithOptions numCPU o fs).options.workers = Min.min 6 numCPU) ∧
     (1 ≤ o.workers →
        (NewWithOptions numCPU o fs).options.workers = o.workers) ∧
     1 ≤ (NewWithOptions numCPU o fs).options.workers) ∧
    ((New numCPU fs).options.workers = Min.min 6 numCPU ∧
     1 ≤ (New numCPU fs).options.workers) := by
  simp only [NewWithOptions, New, defaultOptions, Options.init]
  refine ⟨⟨fun hw => ?_, fun hw => ?_, ?_⟩, ?_, ?_⟩
  · rw [if_pos hw]
  · rw [if_neg (by omega)]
  · split
    · simp only; omega
    · omega
  · rw [if_pos (by decide)]
  · rw [if_pos (by decide)]
    simp only
    omega

/-- A concrete options value for witness runs. -/
def wOpts : Options := { workers := 4 }

/-- A concrete destination raster for witness runs. -/
def wDst : Image :=
  { id := 0, canSub := true, bounds := ⟨⟨0, 0⟩, ⟨2, 2⟩⟩,
    pix := fun _ _ => ⟨0, 0, 1, 1⟩ }

/-- A concrete source raster for witness runs. -/
def wSrc : Image :=
  { id := 1, canSub := true, bounds := ⟨⟨0, 0⟩, ⟨1, 1⟩⟩,
    pix := fun _ _ => ⟨1, 0, 0, 1⟩ }

/-- A concrete initial run state for witness runs. -/
def wS0 : RunState := { nextId := 10, allocs := [], calls := [] }

/-- The identity filter: bounds unchanged, output content is the current
destination content. -/
def wIdFilter : Filter :=
  { bounds := fun b => b, draw := fun d _ _ => .ok d.pix }

/-- A filter that always fails with error code 7. -/
def wFailFilter : Filter :=
  { bounds := fun b => b, draw := fun _ _ _ => .error 7 }

theorem workers_resolution_witness :
    ((((⟨0⟩ : Options).workers < 1 →
        (NewWithOptions 8 ⟨0⟩ []).options.workers = Min.min 6 8) ∧
      (1 ≤ (⟨0⟩ : Options).workers →
        (NewWithOptions 8 ⟨0⟩ []).options.workers = (⟨0⟩ : Options).workers) ∧
      1 ≤ (NewWithOptions 8 ⟨0⟩ []).options.workers) ∧
     ((New 8 []).options.workers = Min.min 6 8 ∧
      1 ≤ (New 8 []).options.workers)) :=
  workers_resolution 8 (by decide) ⟨0⟩ []

def wG10 : GIFT := { filters := [wIdFilter], options := wOpts }

theorem drawAt_unknown_operator_is_replace_witness :
    wG10.DrawAt wDst wSrc ⟨1, 1⟩ 5 wS0 =
      wG10.DrawAt wDst wSrc ⟨1, 1⟩ CopyOperator wS0 :=
  drawAt_unknown_operator_is_replace wG10 wDst wSrc ⟨1, 1⟩ wS0 5 (by decide)

/-- C7: a single-filter pipeline allocates no intermediate raster, and the
one render call targets the caller's destination backing storage with the
caller's source as input. -/
theorem draw_single_filter_no_temp (g : GIFT) (dst src : Image) (s : RunState)
    (h : g.filters.length = 1) :
    (g.Draw dst src s).2.allocs = s.allocs ∧
    (g.Draw dst src s).2.calls = s.calls ++ [(dst.id, src.id)] := by
  obtain ⟨f, hf⟩ : ∃ f, g.filters = [f] := by
    cases hg : g.filters with
    | nil => rw [hg] at h; simp at h
    | cons f fs =>
      cases fs with
      | nil => exact ⟨f, rfl⟩
      | cons f2 fs2 => rw [hg] at h; simp at h
  simp only [GIFT.Draw, hf, List.isEmpty_cons, Bool.false_eq_true, if_false,
    drawLoop]
  cases hd : f.draw dst src g.options <;> simp [hd]

def wG7 : GIFT := { filters := [wIdFilter], options := wOpts }

theorem draw_single_filter_no_temp_witness :
    (wG7.Draw wDst wSrc wS0).2.allocs = wS0.allocs ∧
    (wG7.Draw wDst wSrc wS0).2.calls = wS0.calls ++ [(wDst.id, wSrc.id)] :=
  draw_single_filter_no_temp wG7 wDst wSrc wS0 rfl

theorem drawLoop_error_spec (opts : Options) (dst : Image) :
    ∀ (fs : List Filter) (cur : Image) (s : RunState) (e : GoError),
      (drawLoop opts dst fs cur s).1 = .error e →
      ∃ k f tmpOut tmpIn l,
        fs[k]? = some f ∧
        f.draw tmpOut tmpIn opts = .error e ∧
        (drawLoop opts dst fs cur s).2.calls = s.calls ++ l ∧
        l.length = k + 1 ∧ k + 1 ≤ fs.length := by
  intro fs
  induction fs with
  | nil => intro cur s e h; simp [drawLoop] at h
  | cons f rest ih =>
    intro cur s e h
    cases rest with
    | nil =>
      simp only [drawLoop] at h ⊢
      cases hd : f.draw dst cur opts with
      | error e2 =>
        rw [hd] at h
        have he : e2 = e := by simpa using h
        subst he
        exact ⟨0, f, dst, cur, [(dst.id, cur.id)], rfl, hd, rfl, rfl, by simp⟩
      | ok out => rw [hd] at h; simp at h
    | cons f2 rest2 =>
      simp only [drawLoop] at h ⊢
      cases hd : f.draw (createTempImage (f.bounds cur.bounds) s).1 cur opts with
      | error e2 =>
        rw [hd] at h
        have he : e2 = e := by simpa using h
        subst he
        refine ⟨0, f, (createTempImage (f.bounds cur.bounds) s).1, cur,
          [((createTempImage (f.bounds cur.bounds) s).1.id, cur.id)], rfl, hd,
          rfl, rfl, ?_⟩
        simp only [List.length_cons]
        omega
      | ok out =>
        rw [hd] at h
        obtain ⟨k, fk, tO, tI, l, h1, h2, h3, h4, h5⟩ :=
          ih { (createTempImage (f.bounds cur.bounds) s).1 with pix := out }
            { (createTempImage (f.bounds cur.bounds) s).2 with
              calls := (createTempImage (f.bounds cur.bounds) s).2.calls ++
                [((createTempImage (f.bounds cur.bounds) s).1.id, cur.id)] }
            e h
        refine ⟨k + 1, fk, tO, tI,
          ((createTempImage (f.bounds cur.bounds) s).1.id, cur.id) :: l,
          by simpa using h1, h2, ?_, by simp [h4], ?_⟩
        · refine h3.trans ?_
          simp [createTempImage]
        · simp only [List.length_cons] at h5 ⊢
          omega

/-- C5: when `Draw` returns a failure, the failure is exactly the error
signalled by the k-th filter's render at its actual inputs; exactly k + 1
renders were invoked (one per stage, in sequence order), so no later filter
ran and none was retried. -/
theorem draw_stage_failure_propagates (g : GIFT) (dst src : Image)
    (s : RunState) (e : GoError) (h : (g.Draw dst src s).1 = .error e) :
    ∃ k f tmpOut tmpIn l,
      g.filters[k]? = some f ∧
      f.draw tmpOut tmpIn g.options = .error e ∧
      (g.Draw dst src s).2.calls = s.calls ++ l ∧
      l.length = k + 1 ∧ k + 1 ≤ g.filters.length := by
  rw [GIFT.Draw] at h ⊢
  cases hg : g.filters with
  | nil => rw [hg] at h; simp at h
  | cons f rest =>
    rw [hg] at h
    simp only [List.isEmpty_cons, Bool.false_eq_true, if_false] at h ⊢
    exact drawLoop_error_spec g.options dst (f :: rest) src s e h

def wG5 : GIFT := { filters := [wFailFilter], options := wOpts }

theorem draw_stage_failure_propagates_witness :
    ∃ k f tmpOut tmpIn l,
      wG5.filters[k]? = some f ∧
      f.draw tmpOut tmpIn wG5.options = .error 7 ∧
      (wG5.Draw wDst wSrc wS0).2.calls = wS0.calls ++ l ∧
      l.length = k + 1 ∧ k + 1 ≤ wG5.filters.length :=
  draw_stage_failure_propagates wG5 wDst wSrc wS0 7 rfl

/-- C6: with an empty filter list, `Draw` returns success and its result is
exactly the anchored copy: every offset inside the overlap of the two
extents is populated from the source (anchored at each raster's own
origin), and every other destination pixel is untouched.  The `copyimage`
body is modelled from the spec (it is not part of the provided source). -/
theorem draw_empty_filters_is_anchored_copy (g : GIFT) (dst src : Image)
    (s : RunState) (h : g.filters = []) :
    g.Draw dst src s = (.ok (copyimage dst src g.options), s) ∧
    (∀ dx dy : ℤ,
      0 ≤ dx → dx < Min.min dst.bounds.Dx src.bounds.Dx →
      0 ≤ dy → dy < Min.min dst.bounds.Dy src.bounds.Dy →
      (copyimage dst src g.options).pix (dst.bounds.min.x + dx)
          (dst.bounds.min.y + dy) =
        src.pix (src.bounds.min.x + dx) (src.bounds.min.y + dy)) ∧
    (∀ x y : ℤ,
      ¬ (0 ≤ x - dst.bounds.min.x ∧
         x - dst.bounds.min.x < Min.min dst.bounds.Dx src.bounds.Dx ∧
         0 ≤ y - dst.bounds.min.y ∧
         y - dst.bounds.min.y < Min.min dst.bounds.Dy src.bounds.Dy) →
      (copyimage dst src g.options).pix x y = dst.pix x y) := by
  refine ⟨by simp [GIFT.Draw, h], fun dx dy h1 h2 h3 h4 => ?_, fun x y hn => ?_⟩
  · simp only [copyimage]
    rw [if_pos (by constructor <;> [omega; constructor] <;> [omega; constructor] <;> omega)]
    congr 1 <;> omega
  · simp only [copyimage]
    rw [if_neg hn]

def wG6 : GIFT := { filters := [], options := wOpts }

theorem draw_empty_filters_is_anchored_copy_witness :
    wG6.Draw wDst wSrc wS0 = (.ok (copyimage wDst wSrc wG6.options), wS0) ∧
    (∀ dx dy : ℤ,
      0 ≤ dx → dx < Min.min wDst.bounds.Dx wSrc.bounds.Dx →
      0 ≤ dy → dy < Min.min wDst.bounds.Dy wSrc.bounds.Dy →
      (copyimage wDst wSrc wG6.options).pix (wDst.bounds.min.x + dx)
          (wDst.bounds.min.y + dy) =
        wSrc.pix (wSrc.bounds.min.x + dx) (wSrc.bounds.min.y + dy)) ∧
    (∀ x y : ℤ,
      ¬ (0 ≤ x - wDst.bounds.min.x ∧
         x - wDst.bounds.min.x < Min.min wDst.bounds.Dx wSrc.bounds.Dx ∧
         0 ≤ y - wDst.bounds.min.y ∧
         y - wDst.bounds.min.y < Min.min wDst.bounds.Dy wSrc.bounds.Dy) →
      (copyimage wDst wSrc wG6.options).pix x y = wDst.pix x y) :=
  draw_empty_filters_is_anchored_copy wG6 wDst wSrc wS0 rfl

theorem overPixel_eq_specSourceOver (px0 px1 : Pixel) :
    overPixel px0 px1 = specSourceOver px0 px1 := by
  obtain ⟨r0, g0, b0, a0⟩ := px0
  obtain ⟨r1, g1, b1, a1⟩ := px1
  simp only [overPixel, specSourceOver]
  by_cases hcs : (1 - a1) * a0 + a1 = 0
  · rw [if_pos hcs, hcs]
    simp only [div_zero, mul_zero, add_zero, Pixel.mk.injEq, true_and]
    linear_combination hcs
  · rw [if_neg hcs]

theorem drawAt_over_pix (g : GIFT) (dst src : Image) (pt : Point)
    (s : RunState) (dst2 : Image) (s2 : RunState) (t : Image)
    (hrun : g.DrawAt dst src pt OverOperator s = (.ok dst2, s2))
    (ht : overTempImage g src pt s = some t) (x y : ℤ)
    (hxy : ((((g.Bounds src.bounds).sub (g.Bounds src.bounds).min).add
        pt).Intersect dst.bounds).Mem x y) :
    dst2.pix x y = overPixel (dst.pix x y) (t.pix x y) := by
  simp only [GIFT.DrawAt, eq_self_iff_true, if_true] at hrun
  simp only [overTempImage] at ht
  rcases hd : g.Draw (createTempImage (((g.Bounds src.bounds).sub
      (g.Bounds src.bounds).min).add pt) s).1 src
      (createTempImage (((g.Bounds src.bounds).sub
      (g.Bounds src.bounds).min).add pt) s).2 with ⟨e | t2, s3⟩
  · rw [hd] at hrun
    simp at hrun
  · rw [hd] at hrun ht
    simp only [Option.some.injEq] at ht
    subst ht
    simp only [Prod.mk.injEq, Except.ok.injEq] at hrun
    obtain ⟨h1, h2⟩ := hrun
    subst h1
    simp only [if_pos hxy]

/-- C1: for every pixel of the intersection of the rendered temporary's
bounds and the destination's bounds, the Over operator of `DrawAt` writes
exactly the spec's source-over formula with normalized weights
`c0 = (1 - px1.a) * px0.a` and `c1 = px1.a`; in the degenerate case
`cs = c0 + c1 = 0` the division is guarded (a division by zero contributes
0 in this exact-arithmetic model) and the written pixel is fully
transparent black. -/
theorem drawAt_over_matches_spec (g : GIFT) (dst src : Image) (pt : Point)
    (s : RunState) (dst2 : Image) (s2 : RunState) (t : Image)
    (hrun : g.DrawAt dst src pt OverOperator s = (.ok dst2, s2))
    (ht : overTempImage g src pt s = some t) (x y : ℤ)
    (hxy : ((((g.Bounds src.bounds).sub (g.Bounds src.bounds).min).add
        pt).Intersect dst.bounds).Mem x y) :
    dst2.pix x y = specSourceOver (dst.pix x y) (t.pix x y) :=
  (drawAt_over_pix g dst src pt s dst2 s2 t hrun ht x y hxy).trans
    (overPixel_eq_specSourceOver _ _)

def wRunO : Except GoError Image × RunState :=
  wG6.DrawAt wDst wSrc ⟨0, 0⟩ OverOperator wS0

def wOutO : Image :=
  match wRunO.1 with
  | .ok i => i
  | .error _ => wDst

def wTmpO : Image :=
  match overTempImage wG6 wSrc ⟨0, 0⟩ wS0 with
  | some i => i
  | none => wDst

theorem drawAt_over_matches_spec_witness :
    wOutO.pix 0 0 = specSourceOver (wDst.pix 0 0) (wTmpO.pix 0 0) :=
  drawAt_over_matches_spec wG6 wDst wSrc ⟨0, 0⟩ wS0 wOutO wRunO.2 wTmpO rfl
    rfl 0 0 (by decide)

theorem overPixel_opaque_src (px0 px1 : Pixel) (h : px1.a = 1) :
    overPixel px0 px1 = px1 := by
  obtain ⟨r0, g0, b0, a0⟩ := px0
  obtain ⟨r1, g1, b1, a1⟩ := px1
  have h' : a1 = 1 := h
  subst h'
  simp only [overPixel, Pixel.mk.injEq]
  norm_num

theorem overPixel_transparent_src (px0 px1 : Pixel) (h1 : px1.a = 0)
    (h0 : px0.a ≠ 0) : overPixel px0 px1 = px0 := by
  obtain ⟨r0, g0, b0, a0⟩ := px0
  obtain ⟨r1, g1, b1, a1⟩ := px1
  have h1' : a1 = 0 := h1
  have h0' : a0 ≠ 0 := h0
  subst h1'
  simp only [overPixel, Pixel.mk.injEq]
  norm_num [div_self h0']

theorem overPixel_both_transparent (px0 px1 : Pixel) (h1 : px1.a = 0)
    (h0 : px0.a = 0) : overPixel px0 px1 = ⟨0, 0, 0, 0⟩ := by
  obtain ⟨r0, g0, b0, a0⟩ := px0
  obtain ⟨r1, g1, b1, a1⟩ := px1
  have h1' : a1 = 0 := h1
  have h0' : a0 = 0 := h0
  subst h1'
  subst h0'
  simp only [overPixel, Pixel.mk.injEq]
  norm_num

def cDst2 : Image :=
  { id := 0, canSub := true, bounds := ⟨⟨0, 0⟩, ⟨1, 1⟩⟩,
    pix := fun _ _ => ⟨1, 0, 0, 0⟩ }

def cSrc2 : Image :=
  { id := 1, canSub := true, bounds := ⟨⟨0, 0⟩, ⟨1, 1⟩⟩,
    pix := fun _ _ => ⟨0, 0, 0, 0⟩ }

def cRun2 : Except GoError Image × RunState :=
  wG6.DrawAt cDst2 cSrc2 ⟨0, 0⟩ OverOperator wS0

def cOut2 : Image :=
  match cRun2.1 with
  | .ok i => i
  | .error _ => cDst2

def cTmp2 : Image :=
  match overTempImage wG6 cSrc2 ⟨0, 0⟩ wS0 with
  | some i => i
  | none => cDst2

/-- C2 as stated is false: in this successful Over run, the pixel (0,0)
lies in the composited intersection and the rendered source pixel there has
alpha 0, yet the destination pixel (a destination with alpha 0 but a
nonzero red channel, as a non-premultiplied raster can hold) is changed to
fully transparent black rather than left unchanged. -/
theorem drawAt_over_transparent_changes_dst :
    cRun2.1 = .ok cOut2 ∧
    ((((wG6.Bounds cSrc2.bounds).sub (wG6.Bounds cSrc2.bounds).min).add
        ⟨0, 0⟩).Intersect cDst2.bounds).Mem 0 0 ∧
    (cTmp2.pix 0 0).a = 0 ∧
    cOut2.pix 0 0 ≠ cDst2.pix 0 0 := by
  refine ⟨rfl, by decide, rfl, ?_⟩
  have hp : cOut2.pix 0 0 = overPixel (cDst2.pix 0 0) (cTmp2.pix 0 0) :=
    drawAt_over_pix wG6 cDst2 cSrc2 ⟨0, 0⟩ wS0 cOut2 cRun2.2 cTmp2 rfl rfl
      0 0 (by decide)
  have hz : overPixel (cDst2.pix 0 0) (cTmp2.pix 0 0) = ⟨0, 0, 0, 0⟩ :=
    overPixel_both_transparent _ _ rfl rfl
  rw [hp, hz]
  have hd : cDst2.pix 0 0 = ⟨1, 0, 0, 0⟩ := rfl
  rw [hd]
  simp only [ne_eq, Pixel.mk.injEq]
  norm_num

/-- C2 amended: a fully opaque rendered source pixel (a = 1) replaces the
destination pixel exactly; a fully transparent rendered source pixel
(a = 0) leaves the destination pixel unchanged whenever the destination
pixel's alpha is nonzero; when both alphas are 0 the written pixel is fully
transparent black (which differs from the destination pixel when it had
nonzero color channels under zero alpha). -/
theorem drawAt_over_alpha_endpoints (g : GIFT) (dst src : Image) (pt : Point)
    (s : RunState) (dst2 : Image) (s2 : RunState) (t : Image)
    (hrun : g.DrawAt dst src pt OverOperator s = (.ok dst2, s2))
    (ht : overTempImage g src pt s = some t) (x y : ℤ)
    (hxy : ((((g.Bounds src.bounds).sub (g.Bounds src.bounds).min).add
        pt).Intersect dst.bounds).Mem x y) :
    ((t.pix x y).a = 1 → dst2.pix x y = t.pix x y) ∧
    ((t.pix x y).a = 0 → (dst.pix x y).a ≠ 0 → dst2.pix x y = dst.pix x y) ∧
    ((t.pix x y).a = 0 → (dst.pix x y).a = 0 → dst2.pix x y = ⟨0, 0, 0, 0⟩) := by
  have hp := drawAt_over_pix g dst src pt s dst2 s2 t hrun ht x y hxy
  exact ⟨fun h1 => hp.trans (overPixel_opaque_src _ _ h1),
    fun h1 h0 => hp.trans (overPixel_transparent_src _ _ h1 h0),
    fun h1 h0 => hp.trans (overPixel_both_transparent _ _ h1 h0)⟩

def wSrcOp : Image :=
  { id := 1, canSub := true, bounds := ⟨⟨0, 0⟩, ⟨1, 1⟩⟩,
    pix := fun _ _ => ⟨0, 1, 0, 1⟩ }

def wRunA : Except GoError Image × RunState :=
  wG6.DrawAt wDst wSrcOp ⟨0, 0⟩ OverOperator wS0

def wOutA : Image :=
  match wRunA.1 with
  | .ok i => i
  | .error _ => wDst

def wTmpA : Image :=
  match overTempImage wG6 wSrcOp ⟨0, 0⟩ wS0 with
  | some i => i
  | none => wDst

theorem drawAt_over_alpha_endpoints_witness :
    ((wTmpA.pix 0 0).a = 1 → wOutA.pix 0 0 = wTmpA.pix 0 0) ∧
    ((wTmpA.pix 0 0).a = 0 → (wDst.pix 0 0).a ≠ 0 →
      wOutA.pix 0 0 = wDst.pix 0 0) ∧
    ((wTmpA.pix 0 0).a = 0 → (wDst.pix 0 0).a = 0 →
      wOutA.pix 0 0 = ⟨0, 0, 0, 0⟩) :=
  drawAt_over_alpha_endpoints wG6 wDst wSrcOp ⟨0, 0⟩ wS0 wOutA wRunA.2 wTmpA
    rfl rfl 0 0 (by decide)

theorem Rectangle.empty_translate (B : Rectangle) (pt : Point) :
    ((B.sub B.min).add pt).Empty ↔ B.Empty := by
  simp only [Rectangle.sub, Rectangle.add, Point.add, Rectangle.Empty]
  omega

theorem Rectangle.mem_translate_min (B : Rectangle) (pt : Point) :
    ((B.sub B.min).add pt).Mem pt.x pt.y ↔ ¬ B.Empty := by
  simp only [Rectangle.sub, Rectangle.add, Point.add, Rectangle.Mem,
    Rectangle.Empty]
  omega

theorem Rectangle.not_mem_intersect_of_empty_either (r q : Rectangle)
    (h : r.Empty ∨ q.Empty) (x y : ℤ) : ¬ (r.Intersect q).Mem x y := by
  intro hm
  rw [Rectangle.mem_intersect] at hm
  cases h with
  | inl h => exact Rectangle.not_empty_of_mem hm.1 h
  | inr h => exact Rectangle.not_empty_of_mem hm.2 h

theorem copyimage_pix_of_empty (dst src : Image) (o : Options)
    (h : src.bounds.Empty ∨ dst.bounds.Empty) (x y : ℤ) :
    (copyimage dst src o).pix x y = dst.pix x y := by
  simp only [copyimage]
  rw [if_neg]
  intro hc
  obtain ⟨h1, h2, h3, h4⟩ := hc
  simp only [Rectangle.Empty, Rectangle.Dx, Rectangle.Dy] at h h2 h4
  omega

theorem drawLoop_ok (opts : Options) (dst : Image) :
    ∀ (fs : List Filter) (cur : Image) (s : RunState),
      (∀ f ∈ fs, f.ConfinedWrites) → (∀ f ∈ fs, f.NeverFails) →
      ∃ out s2, drawLoop opts dst fs cur s = (.ok { dst with pix := out }, s2) ∧
        ∀ x y : ℤ, ¬ ((boundsLoop fs cur.bounds).Intersect dst.bounds).Mem x y →
          out x y = dst.pix x y := by
  intro fs
  induction fs with
  | nil =>
    intro cur s _ _
    exact ⟨dst.pix, s, rfl, fun x y _ => rfl⟩
  | cons f rest ih =>
    intro cur s hconf hnf
    cases rest with
    | nil =>
      obtain ⟨out, hout⟩ := hnf f (List.mem_cons_self f []) dst cur opts
      refine ⟨out, { s with calls := s.calls ++ [(dst.id, cur.id)] }, ?_, ?_⟩
      · simp only [drawLoop, hout]
      · intro x y hxy
        exact hconf f (List.mem_cons_self f []) dst cur opts out hout x y hxy
    | cons f2 rest2 =>
      obtain ⟨out1, hout1⟩ := hnf f (List.mem_cons_self f (f2 :: rest2))
        (createTempImage (f.bounds cur.bounds) s).1 cur opts
      obtain ⟨out, s2, hloop, hcw⟩ :=
        ih { (createTempImage (f.bounds cur.bounds) s).1 with pix := out1 }
          { (createTempImage (f.bounds cur.bounds) s).2 with
            calls := (createTempImage (f.bounds cur.bounds) s).2.calls ++
              [((createTempImage (f.bounds cur.bounds) s).1.id, cur.id)] }
          (fun f3 h3 => hconf f3 (List.mem_cons_of_mem f h3))
          (fun f3 h3 => hnf f3 (List.mem_cons_of_mem f h3))
      refine ⟨out, s2, ?_, ?_⟩
      · simp only [drawLoop, hout1]
        exact hloop
      · intro x y hxy
        exact hcw x y hxy

theorem draw_ok (g : GIFT) (dst src : Image) (s : RunState)
    (hconf : ∀ f ∈ g.filters, f.ConfinedWrites)
    (hnf : ∀ f ∈ g.filters, f.NeverFails) :
    ∃ out s2, g.Draw dst src s = (.ok { dst with pix := out }, s2) ∧
      (g.filters = [] → out = (copyimage dst src g.options).pix) ∧
      (g.filters ≠ [] → ∀ x y : ℤ,
        ¬ (((g.Bounds src.bounds).Intersect dst.bounds).Mem x y) →
        out x y = dst.pix x y) := by
  cases hfs : g.filters with
  | nil =>
    refine ⟨(copyimage dst src g.options).pix, s, ?_, fun _ => rfl,
      fun hne => absurd rfl hne⟩
    rw [GIFT.Draw, hfs]
    rfl
  | cons f rest =>
    rw [hfs] at hconf hnf
    obtain ⟨out, s2, hloop, hcw⟩ := drawLoop_ok g.options dst (f :: rest) src s
      hconf hnf
    refine ⟨out, s2, ?_, fun he => ?_, fun _ x y hxy => ?_⟩
    · rw [GIFT.Draw, hfs]
      simp only [List.isEmpty_cons, Bool.false_eq_true, if_false]
      exact hloop
    · exact absurd he (List.cons_ne_nil f rest)
    · rw [GIFT.Bounds, hfs] at hxy
      exact hcw x y hxy

/-- C8: a Replace `DrawAt` whose rendered output bounds, translated to the
placement point, do not intersect the destination's bounds writes no pixel
of the destination and returns success, on every path of the operator's
default branch (the filters are assumed to satisfy the spec's render
contract: they succeed and write only within their output bounds clipped to
their target's bounds). -/
theorem drawAt_replace_empty_intersection_no_writes (g : GIFT)
    (dst src : Image) (pt : Point) (s : RunState)
    (hconf : ∀ f ∈ g.filters, f.ConfinedWrites)
    (hnf : ∀ f ∈ g.filters, f.NeverFails)
    (hempty : ((((g.Bounds src.bounds).sub (g.Bounds src.bounds).min).add
        pt).Intersect dst.bounds).Empty) :
    ∃ dst2 s2, g.DrawAt dst src pt CopyOperator s = (.ok dst2, s2) ∧
      ∀ x y : ℤ, dst2.pix x y = dst.pix x y := by
  have hkey : dst.bounds.Mem pt.x pt.y → (g.Bounds src.bounds).Empty := by
    intro hmem
    by_contra hB
    have h1 : (((g.Bounds src.bounds).sub (g.Bounds src.bounds).min).add
        pt).Mem pt.x pt.y := (Rectangle.mem_translate_min _ _).2 hB
    have h2 := (Rectangle.mem_intersect _ _ pt.x pt.y).2 ⟨h1, hmem⟩
    exact Rectangle.not_empty_of_mem h2 hempty
  rw [GIFT.DrawAt,
    if_neg (show ¬ ((CopyOperator : Operator) = OverOperator) by decide)]
  by_cases hpt : pt = dst.bounds.min
  · rw [if_pos hpt]
    have hsd : (g.Bounds src.bounds).Empty ∨ dst.bounds.Empty := by
      by_cases hde : dst.bounds.Empty
      · exact Or.inr hde
      · refine Or.inl (hkey ?_)
        rw [hpt]
        simp only [Rectangle.Mem, Rectangle.Empty] at hde ⊢
        omega
    obtain ⟨out, s2, hdr, hcopy, hcw⟩ := draw_ok g dst src s hconf hnf
    rw [hdr]
    refine ⟨_, _, rfl, fun x y => ?_⟩
    show out x y = dst.pix x y
    by_cases hfs : g.filters = []
    · rw [hcopy hfs]
      refine copyimage_pix_of_empty dst src g.options ?_ x y
      have hBsrc : g.Bounds src.bounds = src.bounds := by
        rw [GIFT.Bounds, hfs]
        exact rfl
      rw [hBsrc] at hsd
      exact hsd
    · exact hcw hfs x y
        (Rectangle.not_mem_intersect_of_empty_either _ _ hsd x y)
  · rw [if_neg hpt]
    by_cases hin : pt.In dst.bounds
    · have hBE : (g.Bounds src.bounds).Empty := hkey hin
      by_cases hcs : dst.canSub = true
      · have hsub : getSubImage dst pt =
            some { dst with bounds := ⟨pt, dst.bounds.max⟩ } := by
          simp [getSubImage, hin, hcs]
        simp only [hsub]
        obtain ⟨out, s2, hdr, hcopy, hcw⟩ := draw_ok g
          { dst with bounds := ⟨pt, dst.bounds.max⟩ } src s hconf hnf
        rw [hdr]
        refine ⟨_, _, rfl, fun x y => ?_⟩
        show out x y = dst.pix x y
        by_cases hfs : g.filters = []
        · rw [hcopy hfs]
          refine copyimage_pix_of_empty _ src g.options (Or.inl ?_) x y
          have hBsrc : g.Bounds src.bounds = src.bounds := by
            rw [GIFT.Bounds, hfs]
            exact rfl
          rw [hBsrc] at hBE
          exact hBE
        · exact hcw hfs x y
            (Rectangle.not_mem_intersect_of_empty_either _ _ (Or.inl hBE) x y)
      · have hsub : getSubImage dst pt = none := by
          simp [getSubImage, hin, hcs]
        simp only [hsub]
        obtain ⟨out, s2, hdr, hcopy, hcw⟩ := draw_ok g
          (createTempImage (((g.Bounds src.bounds).sub
            (g.Bounds src.bounds).min).add pt) s).1 src
          (createTempImage (((g.Bounds src.bounds).sub
            (g.Bounds src.bounds).min).add pt) s).2 hconf hnf
        rw [hdr]
        refine ⟨_, _, rfl, fun x y => ?_⟩
        show (if ((((g.Bounds src.bounds).sub (g.Bounds src.bounds).min).add
            pt).Intersect dst.bounds).Mem x y then out x y else dst.pix x y) =
          dst.pix x y
        rw [if_neg (Rectangle.not_mem_of_empty hempty x y)]
    · have hsub : getSubImage dst pt = none := by
        simp [getSubImage, hin]
      simp only [hsub]
      obtain ⟨out, s2, hdr, hcopy, hcw⟩ := draw_ok g
        (createTempImage (((g.Bounds src.bounds).sub
          (g.Bounds src.bounds).min).add pt) s).1 src
        (createTempImage (((g.Bounds src.bounds).sub
          (g.Bounds src.bounds).min).add pt) s).2 hconf hnf
      rw [hdr]
      refine ⟨_, _, rfl, fun x y => ?_⟩
      show (if ((((g.Bounds src.bounds).sub (g.Bounds src.bounds).min).add
          pt).Intersect dst.bounds).Mem x y then out x y else dst.pix x y) =
        dst.pix x y
      rw [if_neg (Rectangle.not_mem_of_empty hempty x y)]

def cSrcE : Image :=
  { id := 1, canSub := true, bounds := ⟨⟨0, 0⟩, ⟨0, 0⟩⟩,
    pix := fun _ _ => ⟨1, 1, 1, 1⟩ }

theorem drawAt_replace_empty_intersection_no_writes_witness :
    ∃ dst2 s2, wG6.DrawAt wDst cSrcE ⟨1, 0⟩ CopyOperator wS0 =
        (.ok dst2, s2) ∧
      ∀ x y : ℤ, dst2.pix x y = wDst.pix x y :=
  drawAt_replace_empty_intersection_no_writes wG6 wDst cSrcE ⟨1, 0⟩ wS0
    (by intro f hf; exact absurd hf (List.not_mem_nil f))
    (by intro f hf; exact absurd hf (List.not_mem_nil f))
    (by decide)

end Gift
